import Mathlib

set_option maxHeartbeats 1000000

/-! Shallow embedding of the resumable-download core (`src/lib.rs`).

A file on disk is a byte list (`List Nat`, one entry per byte).  The
asynchronous file operations of the source are modelled as pure
state-passing functions: `set_len` is `setLen`, a `seek(Start pos)`
followed by `write_all data` is `writeAt f pos data`, and reads are
`fslice`.  `u64` arithmetic is exact `Nat` arithmetic, with the one
subtraction whose underflow a claim is about modelled explicitly. -/

/-- Bytes `[pos, pos+n)` of `f` (clipped at the end of the file). -/
def fslice (f : List Nat) (pos n : Nat) : List Nat := (f.drop pos).take n

/-- `File::set_len`: truncate to `n` bytes, or extend with zero bytes. -/
def setLen (f : List Nat) (n : Nat) : List Nat :=
  f.take n ++ List.replicate (n - f.length) 0

/-- `seek(Start pos)` followed by `write_all data`: bytes before `pos` are
kept (a gap past the end of file reads back as zeros), `data` occupies
`[pos, pos + data.length)`, and bytes after that are kept. -/
def writeAt (f : List Nat) (pos : Nat) (data : List Nat) : List Nat :=
  setLen f pos ++ data ++ f.drop (pos + data.length)

theorem length_setLen (f : List Nat) (n : Nat) : (setLen f n).length = n := by
  simp [setLen]; omega

theorem setLen_of_le (f : List Nat) (n : Nat) (h : n ≤ f.length) :
    setLen f n = f.take n := by
  simp [setLen, Nat.sub_eq_zero_of_le h]

theorem setLen_setLen (f : List Nat) (a b : Nat) (h : a ≤ b) :
    setLen (setLen f b) a = setLen f a := by
  unfold setLen
  rw [List.take_append_eq_append_take, List.take_take, List.take_replicate]
  simp only [List.length_take, List.append_assoc, List.length_append,
    List.length_replicate]
  have h1 : min a b = a := Nat.min_eq_left h
  rw [h1]
  congr 1
  rw [← List.replicate_add]
  congr 1
  omega

theorem length_writeAt (f : List Nat) (pos : Nat) (data : List Nat) :
    (writeAt f pos data).length = max f.length (pos + data.length) := by
  simp [writeAt, length_setLen]
  omega

theorem fslice_append_exact (a b : List Nat) (pos n : Nat) (h : a.length = pos) :
    fslice (a ++ b) pos n = b.take n := by
  simp [fslice, ← h, List.drop_left]

theorem fslice_writeAt_self (f : List Nat) (pos : Nat) (data : List Nat) :
    fslice (writeAt f pos data) pos data.length = data := by
  unfold writeAt
  rw [List.append_assoc, fslice_append_exact _ _ _ _ (length_setLen f pos)]
  rw [List.take_append_eq_append_take]
  simp

theorem fslice_take (f : List Nat) (p a b : Nat) (h : a ≤ b) :
    (fslice f p b).take a = fslice f p a := by
  simp [fslice, List.take_take, Nat.min_eq_left h]

theorem fslice_add (f : List Nat) (p a b : Nat) :
    fslice f p (a + b) = fslice f p a ++ fslice f (p + a) b := by
  simp [fslice, List.take_add, List.drop_drop, Nat.add_comm p a]

theorem fslice_zero_left (f : List Nat) (n : Nat) : fslice f 0 n = f.take n := by
  simp [fslice]

theorem fslice_writeAt_left (f : List Nat) (pos : Nat) (data : List Nat)
    (p n : Nat) (hn : p + n ≤ pos) (hpos : pos ≤ f.length) :
    fslice (writeAt f pos data) p n = fslice f p n := by
  unfold writeAt fslice
  rw [setLen_of_le f pos hpos, List.append_assoc,
    List.drop_append_eq_append_drop, List.take_append_eq_append_take]
  have h3 : ((f.take pos).drop p).length = pos - p := by
    simp [List.length_drop, List.length_take]; omega
  rw [h3]
  have h4 : n - (pos - p) = 0 := by omega
  rw [h4, List.take_zero, List.append_nil, List.drop_take, List.take_take]
  congr 1
  omega

theorem fslice_writeAt_right (f : List Nat) (pos : Nat) (data : List Nat)
    (p n : Nat) (hp : pos + data.length ≤ p) (hpos : pos ≤ f.length) :
    fslice (writeAt f pos data) p n = fslice f p n := by
  unfold writeAt fslice
  rw [setLen_of_le f pos hpos, List.append_assoc, List.drop_append_eq_append_drop]
  have h1 : (f.take pos).length = pos := by simp [List.length_take]; omega
  rw [h1]
  have h2 : (f.take pos).drop p = [] := by
    apply List.drop_eq_nil_of_le; simp [List.length_take]; omega
  rw [h2, List.nil_append, List.drop_append_eq_append_drop]
  have h3 : data.drop (p - pos) = [] := by
    apply List.drop_eq_nil_of_le; omega
  rw [h3, List.nil_append, List.drop_drop]
  have h4 : pos + data.length + (p - pos - data.length) = p := by omega
  rw [h4]

/-! ### Fixed-width decimal formatting and parsing

`format!` with zero padding to width 20 prints a `u64` as exactly 20
ASCII digits (every `u64` is below `10^20`).  `padDigits k n` is that
digit string for width `k`: the digit at weight `10^(k-1)` first. -/

def padDigits : Nat → Nat → List Nat
  | 0, _ => []
  | k+1, n => (n / 10 ^ k % 10 + 48) :: padDigits k n

/-- The 20 ASCII digit bytes written for a counter field. -/
def pad20 (n : Nat) : List Nat := padDigits 20 n

theorem length_padDigits (k n : Nat) : (padDigits k n).length = k := by
  induction k generalizing n with
  | zero => rfl
  | succ k ih => simp [padDigits, ih]

theorem length_pad20 (n : Nat) : (pad20 n).length = 20 := length_padDigits 20 n

theorem padDigits_all_digits (k n : Nat) :
    (padDigits k n).all (fun b => 48 ≤ b && b ≤ 57) = true := by
  induction k generalizing n with
  | zero => rfl
  | succ k ih =>
    simp only [padDigits, List.all_cons, ih, Bool.and_true]
    have h1 : n / 10 ^ k % 10 < 10 := Nat.mod_lt _ (by omega)
    simp; omega

theorem padDigits_foldl (k : Nat) : ∀ n a : Nat,
    (padDigits k n).foldl (fun acc b => acc * 10 + (b - 48)) a =
      a * 10 ^ k + n % 10 ^ k := by
  induction k with
  | zero => intro n a; simp [padDigits, Nat.mod_one]
  | succ k ih =>
    intro n a
    simp only [padDigits, List.foldl_cons]
    rw [ih]
    have h1 : n / 10 ^ k % 10 + 48 - 48 = n / 10 ^ k % 10 := by omega
    rw [h1]
    have h2 : n % 10 ^ (k + 1) = n % 10 ^ k + 10 ^ k * (n / 10 ^ k % 10) := by
      rw [pow_succ, Nat.mod_mul]
    rw [h2, pow_succ]
    ring

/-- `str::parse::<u64>()` applied to the lossy decoding of raw bytes,
modelled on the bytes themselves: one optional leading `+` (byte 43),
then at least one ASCII digit, and the value must fit in a `u64`.  (This
agrees with parse-after-`from_utf8_lossy` on every byte list: a byte that
is not an ASCII digit or a leading `+` never decodes to a character that
the integer parser accepts.) -/
def parseAux (ds : List Nat) : Option Nat :=
  if ds.isEmpty then none
  else if ds.all (fun b => 48 ≤ b && b ≤ 57) then
    if ds.foldl (fun acc b => acc * 10 + (b - 48)) 0 < 2 ^ 64 then
      some (ds.foldl (fun acc b => acc * 10 + (b - 48)) 0)
    else none
  else none

def parseU64 (bs : List Nat) : Option Nat :=
  parseAux (if bs.head? = some 43 then bs.tail else bs)

theorem parseAux_lt (ds : List Nat) (v : Nat) (h : parseAux ds = some v) :
    v < 2 ^ 64 := by
  unfold parseAux at h
  split at h
  · simp at h
  · split at h
    · split at h
      · simp at h; omega
      · simp at h
    · simp at h

theorem parseU64_lt (bs : List Nat) (v : Nat) (h : parseU64 bs = some v) :
    v < 2 ^ 64 := parseAux_lt _ _ h

theorem parseU64_pad20 (n : Nat) (h : n < 2 ^ 64) :
    parseU64 (pad20 n) = some n := by
  have hcons : pad20 n = (n / 10 ^ 19 % 10 + 48) :: padDigits 19 n := rfl
  have hhead : (pad20 n).head? = some (n / 10 ^ 19 % 10 + 48) := by
    rw [hcons]; rfl
  have hne : ¬((pad20 n).head? = some 43) := by
    rw [hhead]
    intro hcontra
    simp at hcontra
  unfold parseU64
  rw [if_neg hne]
  unfold parseAux
  have hnonempty : (pad20 n).isEmpty = false := by
    rw [hcons]; rfl
  rw [hnonempty]
  simp only [Bool.false_eq_true, if_false]
  have hall : ((pad20 n).all fun b => 48 ≤ b && b ≤ 57) = true :=
    padDigits_all_digits 20 n
  rw [if_pos hall]
  have hval : (pad20 n).foldl (fun acc b => acc * 10 + (b - 48)) 0 = n := by
    unfold pad20
    rw [padDigits_foldl]
    have hmod : n % 10 ^ 20 = n := Nat.mod_eq_of_lt (by calc
      n < 2 ^ 64 := h
      _ < 10 ^ 20 := by norm_num)
    simpa using hmod
  rw [hval, if_pos h]

/-! ### Lossy UTF-8 decoding

`Metadata::from_file` reads the hash region back through
`String::from_utf8_lossy`, which keeps well-formed sequences and replaces
each maximal invalid subpart by U+FFFD (bytes `EF BF BD`).  The byte
classification below is the table used by `core::str`'s validator. -/

/-- Continuation byte `80..BF`. -/
def isCont (b : Nat) : Bool := 128 ≤ b && b ≤ 191

/-- Admissible second byte of a multi-byte sequence given its first byte:
rules out overlong encodings, surrogates, and values above U+10FFFF. -/
def utf8Second (b0 b1 : Nat) : Bool :=
  if b0 = 224 then 160 ≤ b1 && b1 ≤ 191
  else if b0 = 237 then 128 ≤ b1 && b1 ≤ 159
  else if b0 = 240 then 144 ≤ b1 && b1 ≤ 191
  else if b0 = 244 then 128 ≤ b1 && b1 ≤ 143
  else isCont b1

/-- The UTF-8 bytes of U+FFFD, the replacement character. -/
def utf8Repl : List Nat := [239, 191, 189]

/-- One decoding step.  `.inl (seq, rest)`: a well-formed sequence `seq`
starts here, `rest` is the remaining input.  `.inr rest`: the input starts
with an invalid subpart; `rest` is the input after skipping it (Rust's
`error_len` of 1 to 3 bytes, or everything when a sequence is cut off by
the end of input). -/
def utf8Next : List Nat → (List Nat × List Nat) ⊕ List Nat
  | [] => .inr []
  | b0 :: t0 =>
    if b0 < 128 then .inl ([b0], t0)
    else if 194 ≤ b0 && b0 ≤ 223 then
      match t0 with
      | [] => .inr []
      | b1 :: t1 => if isCont b1 then .inl ([b0, b1], t1) else .inr t0
    else if 224 ≤ b0 && b0 ≤ 239 then
      match t0 with
      | [] => .inr []
      | b1 :: t1 =>
        if utf8Second b0 b1 then
          match t1 with
          | [] => .inr []
          | b2 :: t2 => if isCont b2 then .inl ([b0, b1, b2], t2) else .inr t1
        else .inr t0
    else if 240 ≤ b0 && b0 ≤ 244 then
      match t0 with
      | [] => .inr []
      | b1 :: t1 =>
        if utf8Second b0 b1 then
          match t1 with
          | [] => .inr []
          | b2 :: t2 =>
            if isCont b2 then
              match t2 with
              | [] => .inr []
              | b3 :: t3 => if isCont b3 then .inl ([b0, b1, b2, b3], t3) else .inr t2
            else .inr t1
        else .inr t0
    else .inr t0

/-- `String::from_utf8_lossy`, producing the UTF-8 bytes of the decoded
string.  Fuel-driven so that it computes by kernel reduction; fuel equal
to the input length always suffices (each step consumes a byte). -/
def utf8LossyAux : Nat → List Nat → List Nat
  | 0, _ => []
  | _+1, [] => []
  | fuel+1, b0 :: t0 =>
    match utf8Next (b0 :: t0) with
    | .inl (seq, rest) => seq ++ utf8LossyAux fuel rest
    | .inr rest => utf8Repl ++ utf8LossyAux fuel rest

def utf8DecodeLossy (l : List Nat) : List Nat := utf8LossyAux l.length l

/-- UTF-8 validity of a byte list (every step of the decoder succeeds). -/
def utf8ValidAux : Nat → List Nat → Bool
  | 0, l => l.isEmpty
  | _+1, [] => true
  | fuel+1, b0 :: t0 =>
    match utf8Next (b0 :: t0) with
    | .inl (_, rest) => utf8ValidAux fuel rest
    | .inr _ => false

def isValidUtf8 (l : List Nat) : Bool := utf8ValidAux l.length l

theorem utf8Next_inl (l seq rest : List Nat)
    (h : utf8Next l = Sum.inl (seq, rest)) :
    l = seq ++ rest ∧ rest.length < l.length := by
  rw [utf8Next.eq_def] at h
  repeat' split at h
  all_goals try (exfalso; revert h; simp; done)
  all_goals
    (simp only [Sum.inl.injEq, Prod.mk.injEq] at h
     obtain ⟨hs, hr⟩ := h
     subst hs; subst hr
     refine ⟨by simp, by simp only [List.length_cons]; omega⟩)

theorem utf8LossyAux_of_valid : ∀ (fuel : Nat) (l : List Nat), l.length ≤ fuel →
    utf8ValidAux fuel l = true → utf8LossyAux fuel l = l := by
  intro fuel
  induction fuel with
  | zero =>
    intro l hl _
    cases l with
    | nil => rfl
    | cons b t => simp at hl
  | succ fuel ih =>
    intro l hl hv
    cases l with
    | nil => rfl
    | cons b0 t0 =>
      simp only [utf8ValidAux] at hv
      simp only [utf8LossyAux]
      cases hnext : utf8Next (b0 :: t0) with
      | inl p =>
        obtain ⟨seq, rest⟩ := p
        rw [hnext] at hv
        dsimp only at hv ⊢
        obtain ⟨happ, hlen⟩ := utf8Next_inl _ _ _ hnext
        have hr : rest.length ≤ fuel := by
          simp only [List.length_cons] at hl hlen
          omega
        rw [ih rest hr hv]
        exact happ.symm
      | inr rest =>
        rw [hnext] at hv
        simp at hv

/-- A valid UTF-8 byte list decodes losslessly to itself. -/
theorem utf8DecodeLossy_of_valid (l : List Nat) (h : isValidUtf8 l = true) :
    utf8DecodeLossy l = l :=
  utf8LossyAux_of_valid l.length l (Nat.le_refl _) h

/-! ### The trailer codec: `Metadata` -/

/-- Error conditions.  The source reports every failure as an
`io::Error::other` with a distinguishing message; the constructors here
name the distinguishable conditions.  `subtractionUnderflow` stands for the
`u64` underflow of `len - size - 40` in `Metadata::from_file` when the
parsed `size` exceeds `len - 40`: a panic in debug builds, and in release
builds a wrapped length whose vector allocation aborts — the call never
returns normally, which the model records as this error value.
`seekOutOfRange` is the io error a `seek(End(-20))` on a file shorter
than 20 bytes would raise (unreachable from the public protocol). -/
inductive Err where
  | destinationExists
  | metadataMissing
  | metadataParseError
  | writeOverflow
  | notYetComplete
  | verificationFailed
  | seekOutOfRange
  | subtractionUnderflow
  deriving DecidableEq

/-- In-memory metadata.  `hash` holds the UTF-8 bytes of the Rust
`String` (`hash.length` is the Rust `hash.len()`), the three counters are
`u64` values. -/
structure Metadata where
  hash : List Nat
  size : Nat
  offset : Nat
  len : Nat
  deriving DecidableEq

/-- `Metadata::new(hash, size)`: fresh metadata, `offset = 0`,
`len = size + 40 + hash.len()`. -/
def Metadata.new (hash : List Nat) (size : Nat) : Metadata :=
  { hash := hash, size := size, offset := 0, len := size + 40 + hash.length }

/-- `Metadata::from_file(file)`: fail when shorter than 40 bytes; read the
last 40 bytes, parse `buf[..20]` as `size` and `buf[20..]` as `offset`;
then read `len - size - 40` bytes at position `size` and lossy-decode them
as the hash.  The final `read_exact` always succeeds if the subtraction
does not underflow, because `size + (len - size - 40) = len - 40 ≤ len`. -/
def Metadata.from_file (f : List Nat) : Except Err Metadata :=
  if f.length < 40 then .error .metadataMissing
  else
    match parseU64 ((fslice f (f.length - 40) 40).take 20) with
    | none => .error .metadataParseError
    | some size =>
      match parseU64 ((fslice f (f.length - 40) 40).drop 20) with
      | none => .error .metadataParseError
      | some offset =>
        if size + 40 ≤ f.length then
          .ok { hash := utf8DecodeLossy (fslice f size (f.length - size - 40)),
                size := size, offset := offset, len := f.length }
        else .error .subtractionUnderflow

/-- `Metadata::update(file)`: set the file length to `len`, seek to
`size` and write `hash` followed by the two 20-digit counters. -/
def Metadata.update (m : Metadata) (f : List Nat) : List Nat :=
  writeAt (setLen f m.len) m.size (m.hash ++ pad20 m.size ++ pad20 m.offset)

/-- `Metadata::amend(hash, size)`: when the stored hash differs from the
requested one AND the stored size differs from the requested one, reset
the offset to 0, replace hash and size and recompute `len`; otherwise
return the stored metadata unchanged. -/
def Metadata.amend (m : Metadata) (hash : List Nat) (size : Nat) : Metadata :=
  if m.hash ≠ hash ∧ m.size ≠ size then
    { hash := hash, size := size, offset := 0, len := size + 40 + hash.length }
  else m

/-! ### Path handling

`Downloading::new` derives the working path from the destination path
with `Path::extension` / `Path::with_extension`.  The model covers bare
file names (no directory separators), which is what the extension logic
of `std::path` operates on (the final path component).  Characters model
the path's characters. -/

/-- Split a name at its last dot: `some (before, after)` when a dot
exists.  Auxiliary for the `rsplitn(2, '.')` of `std::path`. -/
def lastDotSplit : List Char → Option (List Char × List Char)
  | [] => none
  | c :: cs =>
    match lastDotSplit cs with
    | some (b, a) => some (c :: b, a)
    | none => if c = '.' then some ([], cs) else none

/-- `std::path`'s `rsplit_file_at_dot`: `(before, after)` around the last
dot, with the special cases of `".."` and of a name whose only dot is the
leading character (hidden files). -/
def rsplitFileAtDot (name : List Char) : Option (List Char) × Option (List Char) :=
  if name = ['.', '.'] then (some name, none)
  else
    match lastDotSplit name with
    | none => (none, some name)
    | some (b, a) => if b = [] then (some name, none) else (some b, some a)

/-- `Path::extension`: `before.and(after)`. -/
def pathExt (name : List Char) : Option (List Char) :=
  match rsplitFileAtDot name with
  | (some _, some a) => some a
  | _ => none

/-- `Path::file_stem`: `before.or(after)`. -/
def pathStem (name : List Char) : Option (List Char) :=
  match rsplitFileAtDot name with
  | (some b, _) => some b
  | (none, a) => a

/-- `Path::with_extension` / `set_extension` on a bare file name: truncate
to the stem and, when the new extension is nonempty, append a dot and the
extension.  (The empty name has no `file_name`, so it is returned
unchanged.) -/
def withExt (name ext : List Char) : List Char :=
  if name = [] then name
  else
    match pathStem name with
    | none => name
    | some stem => if ext = [] then stem else stem ++ '.' :: ext

/-- The working path of `Downloading::new`: the destination name with its
extension replaced by `format!("{}.downloading", ext)`, where `ext` is
the current extension or the empty string. -/
def workingPath (finalPath : List Char) : List Char :=
  withExt finalPath ((pathExt finalPath).getD [] ++ '.' :: "downloading".toList)

/-! ### The session: `Downloading` -/

/-- A live session: the working file's current bytes and the decoded
metadata.  (The working path is handled by `workingPath`; the open file
handle is the byte state itself.) -/
structure Downloading where
  file : List Nat
  meta : Metadata
  deriving DecidableEq

/-- State of the disk after `complete`: the bytes still at the working
path (`none` once the file is gone), and, on success, the rename target
`self.path.with_extension("")` together with the renamed file's bytes.
The target is a computed path: it coincides with the caller's final path
only when the destination had an extension. -/
structure Disk where
  working : Option (List Nat)
  renamed : Option (List Char × List Nat)
  deriving DecidableEq

/-- `Downloading::new(path, hash, size)` after the working path has been
derived: fail when the final path exists; open/create the working file
(`wfile` is its current content, `[]` when it did not exist); when it is
shorter than 40 bytes start fresh with `Metadata::new`, otherwise decode
with `from_file` and apply `amend`; persist with `update`. -/
def Downloading.new (finalExists : Bool) (wfile : List Nat)
    (hash : List Nat) (size : Nat) : Except Err Downloading :=
  if finalExists then .error .destinationExists
  else if wfile.length < 40 then
    let meta := Metadata.new hash size
    .ok { file := meta.update wfile, meta := meta }
  else
    match Metadata.from_file wfile with
    | .error e => .error e
    | .ok m =>
      let meta := m.amend hash size
      .ok { file := meta.update wfile, meta := meta }

/-- `Downloading::write(buf)`: reject the chunk before any I/O when it
would overrun `size`; otherwise write it at the current offset, rewrite
the final 20 bytes (the offset field) with the new offset, commit the
offset, and return `some new_offset`, or `none` when the content is now
complete.  The returned `Downloading` is the state after the call (on the
overflow error nothing was touched). -/
def Downloading.write (d : Downloading) (buf : List Nat) :
    Except Err (Option Nat) × Downloading :=
  let offset := d.meta.offset + buf.length
  if offset > d.meta.size then (.error .writeOverflow, d)
  else
    let f1 := writeAt d.file d.meta.offset buf
    if f1.length < 20 then (.error .seekOutOfRange, { d with file := f1 })
    else
      let f2 := writeAt f1 (f1.length - 20) (pad20 offset)
      (.ok (if offset ≠ d.meta.size then some offset else none),
       { file := f2, meta := { d.meta with offset := offset } })

/-- `Downloading::complete(verify)`: fail when `offset ≠ size`; truncate
the file to `size` and rewind; run `verify` on the truncated content; on
a mismatch restore the full trailer with `update` and fail; on a match
rename the working file from `self.path` to `self.path.with_extension("")`.
`path` is the session's working path (the `path` field of the Rust
struct); the `Disk` component is the resulting disk state, with the
rename target computed by `withExt path []` exactly as the source does. -/
def Downloading.complete (d : Downloading) (path : List Char)
    (verify : List Nat → List Nat) : Except Err Unit × Disk :=
  if d.meta.offset ≠ d.meta.size then
    (.error .notYetComplete, { working := some d.file, renamed := none })
  else
    let f1 := setLen d.file d.meta.size
    if verify f1 ≠ d.meta.hash then
      (.error .verificationFailed,
       { working := some (d.meta.update f1), renamed := none })
    else
      (.ok (), { working := none, renamed := some (withExt path [], f1) })

/-- `Downloading::write` iterated over a list of chunks, recording each
call's return value and the session state after it; stops at the first
error. -/
def Downloading.writeTrace (d : Downloading) :
    List (List Nat) → Except Err (List (Option Nat × Downloading))
  | [] => .ok []
  | c :: cs =>
    match d.write c with
    | (.ok r, d1) =>
      match d1.writeTrace cs with
      | .ok tr => .ok ((r, d1) :: tr)
      | .error e => .error e
    | (.error e, _) => .error e

/-- Cumulative offsets of a chunk-length list from a starting offset. -/
def cumOffsets (o : Nat) : List Nat → List Nat
  | [] => []
  | n :: ns => (o + n) :: cumOffsets (o + n) ns

/-- Well-formedness of a live session, as established by
`Downloading::new` and maintained by `write`: `len` is derived from
`size` and the hash length, the physical file length is `len`, the
offset never exceeds `size`, `size` fits in a `u64`, and the bytes from
position `size` on are the trailer for the current metadata. -/
abbrev Downloading.Inv (d : Downloading) : Prop :=
  d.meta.len = d.meta.size + 40 + d.meta.hash.length ∧
  d.file.length = d.meta.len ∧
  d.meta.offset ≤ d.meta.size ∧
  d.meta.size < 2 ^ 64 ∧
  fslice d.file d.meta.size (40 + d.meta.hash.length) =
    d.meta.hash ++ pad20 d.meta.size ++ pad20 d.meta.offset

/-! ### Structural lemmas about the codec -/

/-- With the derived `len`, `update` lays the file out as content region
(the old bytes clipped or zero-extended to `size`) followed by the full
trailer. -/
theorem Metadata.update_eq (m : Metadata) (f : List Nat)
    (h : m.len = m.size + 40 + m.hash.length) :
    m.update f = setLen f m.size ++ m.hash ++ pad20 m.size ++ pad20 m.offset := by
  unfold Metadata.update writeAt
  have h1 : m.size ≤ m.len := by omega
  rw [setLen_setLen f m.size m.len h1]
  have h2 : (setLen f m.len).drop
      (m.size + (m.hash ++ pad20 m.size ++ pad20 m.offset).length) = [] := by
    apply List.drop_eq_nil_of_le
    rw [length_setLen]
    simp [length_pad20]
    omega
  rw [h2]
  simp [List.append_assoc]

/-- Decoding a file in trailer normal form recovers the stored fields
(with the hash bytes run through the lossy decoder). -/
theorem Metadata.from_file_encode (content hash : List Nat) (size offset : Nat)
    (hc : content.length = size) (hs : size < 2 ^ 64) (ho : offset < 2 ^ 64) :
    Metadata.from_file (content ++ hash ++ pad20 size ++ pad20 offset) =
      .ok { hash := utf8DecodeLossy hash, size := size, offset := offset,
            len := size + 40 + hash.length } := by
  set f := content ++ hash ++ pad20 size ++ pad20 offset with hf
  have hL : f.length = size + 40 + hash.length := by
    simp [hf, length_pad20]
    omega
  have hbuf : fslice f (f.length - 40) 40 = pad20 size ++ pad20 offset := by
    have hsplit : f = (content ++ hash) ++ (pad20 size ++ pad20 offset) := by
      simp [hf, List.append_assoc]
    rw [hsplit, fslice_append_exact _ _ _ _ (by simp [length_pad20] at hL ⊢; omega)]
    rw [show (40 : Nat) = (pad20 size ++ pad20 offset).length from by
      simp [length_pad20], List.take_length]
  have hhash : fslice f size (f.length - size - 40) = hash := by
    have hsplit : f = content ++ (hash ++ (pad20 size ++ pad20 offset)) := by
      simp [hf, List.append_assoc]
    have hn : f.length - size - 40 = hash.length := by omega
    rw [hn, hsplit, fslice_append_exact _ _ _ _ hc, List.take_left' rfl]
  unfold Metadata.from_file
  rw [if_neg (by omega)]
  rw [hbuf, List.take_left' (length_pad20 size), List.drop_left' (length_pad20 size)]
  rw [parseU64_pad20 size hs, parseU64_pad20 offset ho]
  dsimp only
  rw [if_pos (by omega), hhash, hL]

/-- What a successful `from_file` tells us about its result. -/
theorem Metadata.from_file_ok (f : List Nat) (m : Metadata)
    (h : Metadata.from_file f = .ok m) :
    40 ≤ f.length ∧ m.size + 40 ≤ f.length ∧ m.len = f.length ∧
    m.size < 2 ^ 64 ∧ m.offset < 2 ^ 64 ∧
    m.hash = utf8DecodeLossy (fslice f m.size (f.length - m.size - 40)) := by
  unfold Metadata.from_file at h
  split at h
  · simp at h
  · rename_i hlen
    cases hp : parseU64 ((fslice f (f.length - 40) 40).take 20) with
    | none => rw [hp] at h; simp at h
    | some size =>
      rw [hp] at h
      cases hq : parseU64 ((fslice f (f.length - 40) 40).drop 20) with
      | none => rw [hq] at h; simp at h
      | some offset =>
        rw [hq] at h
        dsimp only at h
        split at h
        · rename_i hfit
          simp only [Except.ok.injEq] at h
          subst h
          exact ⟨by omega, by simpa using hfit, rfl,
            parseU64_lt _ _ hp, parseU64_lt _ _ hq, rfl⟩
        · simp at h

/-! ### Session invariant lemmas -/

/-- The trailer of a well-formed session splits into a stable part (hash
and size field) and the 20-byte offset field at the end. -/
theorem Downloading.Inv_parts (d : Downloading) (h : d.Inv) :
    fslice d.file d.meta.size (20 + d.meta.hash.length) =
      d.meta.hash ++ pad20 d.meta.size ∧
    fslice d.file (d.meta.size + (20 + d.meta.hash.length)) 20 =
      pad20 d.meta.offset := by
  obtain ⟨hlen, hfile, hoff, hsize, htrail⟩ := h
  have h40 : (40 : Nat) + d.meta.hash.length = 20 + d.meta.hash.length + 20 := by
    omega
  rw [h40, fslice_add] at htrail
  have hlenA : (fslice d.file d.meta.size (20 + d.meta.hash.length)).length
      = 20 + d.meta.hash.length := by
    simp [fslice, List.length_take, List.length_drop]
    omega
  have hinj := List.append_inj htrail
    (by rw [hlenA]; simp [length_pad20]; omega)
  exact ⟨hinj.1, hinj.2⟩

/-- In a well-formed session the last 20 bytes of the file are the
20-digit offset field for the in-memory offset. -/
theorem Downloading.Inv_offsetField (d : Downloading) (h : d.Inv) :
    fslice d.file (d.file.length - 20) 20 = pad20 d.meta.offset := by
  have hp := (Downloading.Inv_parts d h).2
  obtain ⟨hlen, hfile, hoff, hsize, htrail⟩ := h
  have hpos : d.meta.size + (20 + d.meta.hash.length) = d.file.length - 20 := by
    omega
  rw [hpos] at hp
  exact hp

/-- A fitting chunk is accepted by `write`: the return value is the new
offset (or the completion signal when it reaches `size`), the metadata
advances by the chunk length, the invariant is preserved, the content
bytes below the old offset are untouched, and the chunk sits at the old
offset. -/
theorem Downloading.write_ok (d : Downloading) (c : List Nat) (h : d.Inv)
    (hfit : d.meta.offset + c.length ≤ d.meta.size) :
    (d.write c).1 = .ok (if d.meta.offset + c.length ≠ d.meta.size
        then some (d.meta.offset + c.length) else none) ∧
    (d.write c).2.meta = { d.meta with offset := d.meta.offset + c.length } ∧
    (d.write c).2.Inv ∧
    fslice (d.write c).2.file 0 d.meta.offset = fslice d.file 0 d.meta.offset ∧
    fslice (d.write c).2.file d.meta.offset c.length = c := by
  have hparts := Downloading.Inv_parts d h
  obtain ⟨hlen, hfile, hoff, hsize, htrail⟩ := h
  set f1 := writeAt d.file d.meta.offset c with hf1
  have hf1len : f1.length = d.meta.len := by
    rw [hf1, length_writeAt]
    omega
  have hw : d.write c =
      (.ok (if d.meta.offset + c.length ≠ d.meta.size
          then some (d.meta.offset + c.length) else none),
       { file := writeAt f1 (f1.length - 20) (pad20 (d.meta.offset + c.length)),
         meta := { d.meta with offset := d.meta.offset + c.length } }) := by
    unfold Downloading.write
    dsimp only
    rw [if_neg (by omega), if_neg (by rw [← hf1, hf1len]; omega)]
  rw [hw]
  dsimp only
  set f2 := writeAt f1 (f1.length - 20) (pad20 (d.meta.offset + c.length))
    with hf2
  have hpadlen : (pad20 (d.meta.offset + c.length)).length = 20 :=
    length_pad20 _
  have hf2len : f2.length = d.meta.len := by
    rw [hf2, length_writeAt, hpadlen]
    omega
  have hslice1 : fslice f2 d.meta.size (20 + d.meta.hash.length) =
      d.meta.hash ++ pad20 d.meta.size := by
    rw [hf2, fslice_writeAt_left _ _ _ _ _ (by rw [hf1len]; omega)
      (by rw [hf1len]; omega)]
    rw [hf1, fslice_writeAt_right _ _ _ _ _ (by omega) (by omega)]
    exact hparts.1
  have hslice2 : fslice f2 (d.meta.size + (20 + d.meta.hash.length)) 20 =
      pad20 (d.meta.offset + c.length) := by
    have hpos : d.meta.size + (20 + d.meta.hash.length) = f1.length - 20 := by
      omega
    rw [hpos, hf2, ← hpadlen, fslice_writeAt_self]
  refine ⟨rfl, rfl, ⟨hlen, hf2len, hfit, hsize, ?_⟩, ?_, ?_⟩
  · have h40 : (40 : Nat) + d.meta.hash.length =
        20 + d.meta.hash.length + 20 := by omega
    rw [h40, fslice_add, hslice1, hslice2]
  · rw [hf2, fslice_writeAt_left _ _ _ _ _ (by omega) (by rw [hf1len]; omega)]
    rw [hf1, fslice_writeAt_left _ _ _ _ _ (by omega) (by omega)]
  · rw [hf2, fslice_writeAt_left _ _ _ _ _ (by omega) (by rw [hf1len]; omega)]
    rw [hf1, fslice_writeAt_self]

/-- `update` on the truncated file of a well-formed session restores the
file byte for byte (the trailer-restore path of `complete`). -/
theorem Metadata.update_restore (d : Downloading) (h : d.Inv) :
    d.meta.update (setLen d.file d.meta.size) = d.file := by
  obtain ⟨hlen, hfile, hoff, hsize, htrail⟩ := h
  have hdrop : d.file.drop d.meta.size =
      d.meta.hash ++ pad20 d.meta.size ++ pad20 d.meta.offset := by
    rw [← htrail]
    unfold fslice
    rw [show (40 : Nat) + d.meta.hash.length =
        (d.file.drop d.meta.size).length from by
      simp [List.length_drop]; omega]
    exact (List.take_length _).symm ▸ rfl
  rw [Metadata.update_eq _ _ hlen,
    setLen_setLen _ _ _ (Nat.le_refl _),
    setLen_of_le _ _ (by omega)]
  calc d.file.take d.meta.size ++ d.meta.hash ++ pad20 d.meta.size ++
        pad20 d.meta.offset
      = d.file.take d.meta.size ++
          (d.meta.hash ++ pad20 d.meta.size ++ pad20 d.meta.offset) := by
        simp [List.append_assoc]
    _ = d.file.take d.meta.size ++ d.file.drop d.meta.size := by rw [hdrop]
    _ = d.file := List.take_append_drop _ _

/-- A session made of well-formed metadata persisted with `update`
satisfies the invariant. -/
theorem Downloading.Inv_mk (m : Metadata) (f : List Nat)
    (hlen : m.len = m.size + 40 + m.hash.length) (hoff : m.offset ≤ m.size)
    (hsize : m.size < 2 ^ 64) :
    Downloading.Inv { file := m.update f, meta := m } := by
  refine ⟨hlen, ?_, hoff, hsize, ?_⟩
  · rw [Metadata.update_eq _ _ hlen]
    simp [List.length_append, length_setLen, length_pad20]
    omega
  · rw [Metadata.update_eq _ _ hlen]
    rw [show setLen f m.size ++ m.hash ++ pad20 m.size ++ pad20 m.offset
        = setLen f m.size ++ (m.hash ++ pad20 m.size ++ pad20 m.offset) from by
      simp [List.append_assoc]]
    rw [fslice_append_exact _ _ _ _ (length_setLen f m.size)]
    rw [show (40 : Nat) + m.hash.length =
        (m.hash ++ pad20 m.size ++ pad20 m.offset).length from by
      simp [length_pad20]; omega]
    exact List.take_length _

/-- In-order delivery of nonempty chunks that exactly exhausts the
remaining content: every write succeeds, offsets accumulate, the last
(and only the last) write signals completion, and the invariant holds
after every step. -/
theorem Downloading.writeTrace_go : ∀ (cs : List (List Nat)) (d : Downloading),
    d.Inv → cs ≠ [] → (∀ c ∈ cs, c ≠ []) →
    d.meta.offset + (cs.map List.length).sum = d.meta.size →
    ∃ tr, d.writeTrace cs = .ok tr ∧
      tr.map (fun p => p.2.meta.offset) =
        cumOffsets d.meta.offset (cs.map List.length) ∧
      tr.map (fun p => p.1) =
        ((cumOffsets d.meta.offset (cs.map List.length)).dropLast.map some)
          ++ [none] ∧
      ∀ p ∈ tr, p.2.Inv := by
  intro cs
  induction cs with
  | nil => intro d _ hne _ _; exact absurd rfl hne
  | cons c cs ih =>
    intro d hInv _ hnec hsum
    simp only [List.map_cons, List.sum_cons] at hsum
    have hfit : d.meta.offset + c.length ≤ d.meta.size := by omega
    obtain ⟨hr, hmeta, hInv1, _, _⟩ := d.write_ok c hInv hfit
    rcases hdw : d.write c with ⟨r0, d1⟩
    rw [hdw] at hr hmeta hInv1
    dsimp only at hr hmeta hInv1
    subst hr
    have hsize1 : d1.meta.size = d.meta.size := by rw [hmeta]
    have hoff1 : d1.meta.offset = d.meta.offset + c.length := by rw [hmeta]
    cases cs with
    | nil =>
      have hdone : d.meta.offset + c.length = d.meta.size := by
        simp at hsum; omega
      refine ⟨[(if d.meta.offset + c.length ≠ d.meta.size
          then some (d.meta.offset + c.length) else none, d1)], ?_, ?_, ?_, ?_⟩
      · unfold Downloading.writeTrace
        rw [hdw]
        rfl
      · simp [cumOffsets, hoff1]
      · simp [cumOffsets, hdone]
      · intro p hp
        simp at hp
        rw [hp]
        exact hInv1
    | cons c2 cs2 =>
      have hc2 : c2 ≠ [] := hnec c2 (by simp)
      have hpos : 0 < c2.length := List.length_pos.mpr hc2
      have hlt : d.meta.offset + c.length < d.meta.size := by
        simp at hsum; omega
      obtain ⟨tr1, htr1, hoffs, hres, hinvs⟩ := ih d1 hInv1 (by simp)
        (fun x hx => hnec x (List.mem_cons_of_mem _ hx))
        (by simp only [List.map_cons, List.sum_cons] at hsum ⊢; omega)
      refine ⟨(some (d.meta.offset + c.length), d1) :: tr1, ?_, ?_, ?_, ?_⟩
      · unfold Downloading.writeTrace
        rw [hdw]
        dsimp only
        rw [if_pos (by omega)]
        rw [htr1]
      · simp only [List.map_cons, cumOffsets, hoffs, hoff1]
      · simp only [List.map_cons, cumOffsets]
        rw [List.dropLast_cons₂, List.map_cons, List.cons_append]
        congr 1
        rw [hoff1] at hres
        simp only [List.map_cons, cumOffsets] at hres
        exact hres
      · intro p hp
        rcases List.mem_cons.mp hp with h1 | h2
        · rw [h1]; exact hInv1
        · exact hinvs p h2

/-! ### Path lemmas -/

theorem lastDotSplit_eq (name b a : List Char)
    (h : lastDotSplit name = some (b, a)) : name = b ++ '.' :: a := by
  induction name generalizing b a with
  | nil => simp [lastDotSplit] at h
  | cons c cs ih =>
    unfold lastDotSplit at h
    cases hsplit : lastDotSplit cs with
    | some p =>
      obtain ⟨b', a'⟩ := p
      rw [hsplit] at h
      dsimp only at h
      simp only [Option.some.injEq, Prod.mk.injEq] at h
      obtain ⟨hb, ha⟩ := h
      subst hb; subst ha
      rw [List.cons_append, ← ih b' a' hsplit]
    | none =>
      rw [hsplit] at h
      dsimp only at h
      split at h
      · rename_i hc
        simp only [Option.some.injEq, Prod.mk.injEq] at h
        obtain ⟨hb, ha⟩ := h
        subst hb; subst ha
        simp [hc]
      · simp at h

/-- The three shapes `rsplit_file_at_dot` can take on a name: no usable
dot (`".."` or a leading-dot-only or dotless name), or a proper split at
the last dot. -/
theorem rsplit_cases (name : List Char) :
    rsplitFileAtDot name = (some name, none) ∨
    rsplitFileAtDot name = (none, some name) ∨
    ∃ b a, b ≠ [] ∧ name = b ++ '.' :: a ∧
      rsplitFileAtDot name = (some b, some a) := by
  unfold rsplitFileAtDot
  split
  · exact Or.inl rfl
  · cases hsplit : lastDotSplit name with
    | none => exact Or.inr (Or.inl rfl)
    | some p =>
      obtain ⟨b, a⟩ := p
      dsimp only
      split
      · rename_i hb
        subst hb
        exact Or.inl rfl
      · rename_i hb
        exact Or.inr (Or.inr ⟨b, a, hb, lastDotSplit_eq _ _ _ hsplit, rfl⟩)

/-- A name with an extension maps to itself plus `".downloading"`. -/
theorem workingPath_ext (name e : List Char) (h : pathExt name = some e) :
    workingPath name = name ++ '.' :: "downloading".toList := by
  rcases rsplit_cases name with hq | hq | ⟨b, a, hb, hname, hq⟩
  · have hnone : pathExt name = none := by unfold pathExt; rw [hq]
    rw [hnone] at h
    simp at h
  · have hnone : pathExt name = none := by unfold pathExt; rw [hq]
    rw [hnone] at h
    simp at h
  · have hext : pathExt name = some a := by unfold pathExt; rw [hq]
    have hstem : pathStem name = some b := by unfold pathStem; rw [hq]
    unfold workingPath withExt
    rw [hext, if_neg (by rw [hname]; simp), hstem]
    dsimp only [Option.getD]
    rw [if_neg (by simp)]
    rw [hname]
    simp [List.append_assoc]

/-- A nonempty name without an extension maps to itself plus
`"..downloading"`: the empty extension string still gets a dot prefix
from `with_extension`. -/
theorem workingPath_noext (name : List Char) (hne : name ≠ [])
    (h : pathExt name = none) :
    workingPath name = name ++ '.' :: '.' :: "downloading".toList := by
  have hstem : pathStem name = some name := by
    rcases rsplit_cases name with hq | hq | ⟨b, a, hb, hname, hq⟩
    · unfold pathStem; rw [hq]
    · unfold pathStem; rw [hq]
    · have hext : pathExt name = some a := by unfold pathExt; rw [hq]
      rw [hext] at h
      simp at h
  unfold workingPath withExt
  rw [h, if_neg hne, hstem]
  dsimp only [Option.getD]
  rw [if_neg (by simp)]
  simp

/-- When the suffix after the dot contains no further dot, the last-dot
split of `xs ++ '.' :: dl` is at that explicit dot. -/
theorem lastDotSplit_append_nodot (dl : List Char)
    (hdl : lastDotSplit dl = none) :
    ∀ xs : List Char, lastDotSplit (xs ++ '.' :: dl) = some (xs, dl) := by
  intro xs
  induction xs with
  | nil =>
    simp only [List.nil_append]
    unfold lastDotSplit
    rw [hdl]
    dsimp only
    rw [if_pos rfl]
  | cons c xs ih =>
    simp only [List.cons_append]
    unfold lastDotSplit
    rw [ih]

/-- For a destination with an extension, `with_extension("")` of the
derived working path recovers the destination: the working path's last
dot is the one in front of `downloading`, so its stem is the original
name. -/
theorem withExt_workingPath_ext (name e : List Char)
    (h : pathExt name = some e) :
    withExt (workingPath name) [] = name := by
  rw [workingPath_ext name e h]
  obtain ⟨b, a, hb, hname, hq⟩ :
      ∃ b a, b ≠ [] ∧ name = b ++ '.' :: a ∧
        rsplitFileAtDot name = (some b, some a) := by
    rcases rsplit_cases name with hq | hq | h3
    · exfalso
      have hnone : pathExt name = none := by unfold pathExt; rw [hq]
      rw [hnone] at h
      simp at h
    · exfalso
      have hnone : pathExt name = none := by unfold pathExt; rw [hq]
      rw [hnone] at h
      simp at h
    · exact h3
  have hnamene : name ≠ [] := by rw [hname]; simp
  have hsplit := lastDotSplit_append_nodot "downloading".toList (by decide) name
  have hsp : rsplitFileAtDot (name ++ '.' :: "downloading".toList) =
      (some name, some "downloading".toList) := by
    unfold rsplitFileAtDot
    rw [if_neg (by
      intro hc
      have hlc := congrArg List.length hc
      simp [List.length_append] at hlc), hsplit]
    dsimp only
    rw [if_neg hnamene]
  have hstem : pathStem (name ++ '.' :: "downloading".toList) = some name := by
    unfold pathStem
    rw [hsp]
  unfold withExt
  rw [if_neg (by simp [hnamene]), hstem]
  dsimp only
  rw [if_pos rfl]

/-- For a destination without an extension, `with_extension("")` of the
derived working path is the destination plus a trailing dot, not the
destination itself: `video..downloading`'s stem is `video.`. -/
theorem withExt_workingPath_noext (name : List Char) (hne : name ≠ [])
    (h : pathExt name = none) :
    withExt (workingPath name) [] = name ++ ['.'] := by
  rw [workingPath_noext name hne h]
  have hre : name ++ '.' :: '.' :: "downloading".toList =
      (name ++ ['.']) ++ '.' :: "downloading".toList := by simp
  rw [hre]
  have hsplit := lastDotSplit_append_nodot "downloading".toList (by decide)
    (name ++ ['.'])
  have hsp : rsplitFileAtDot ((name ++ ['.']) ++ '.' :: "downloading".toList) =
      (some (name ++ ['.']), some "downloading".toList) := by
    unfold rsplitFileAtDot
    rw [if_neg (by
      intro hc
      have hlc := congrArg List.length hc
      simp [List.length_append] at hlc), hsplit]
    dsimp only
    rw [if_neg (by simp)]
  have hstem : pathStem ((name ++ ['.']) ++ '.' :: "downloading".toList) =
      some (name ++ ['.']) := by
    unfold pathStem
    rw [hsp]
  unfold withExt
  rw [if_neg (by simp), hstem]
  dsimp only
  rw [if_pos rfl]

deriving instance DecidableEq for Except

/-! ### Concrete sessions used as witnesses -/

/-- The session `Downloading::new` builds for an absent working file,
destination free, hash `"a"`, size 1. -/
def sampleSession : Downloading :=
  { file := (Metadata.new [97] 1).update [], meta := Metadata.new [97] 1 }

/-- A fully written session (offset = size = 1) with hash `"a"`, content
byte 50 and a complete trailer. -/
def doneSession : Downloading :=
  { file := [50] ++ [97] ++ pad20 1 ++ pad20 1,
    meta := { hash := [97], size := 1, offset := 1, len := 42 } }

/-! ### The claims -/

/-- Claim C1: for every hash string (valid UTF-8 bytes, being a Rust
`String`) and every `u64` size, `new(hash, size)` then `update(file)`
then `from_file(file)` reproduces the identical hash, the identical
size, and offset 0 (with `len` the derived physical length). -/
theorem c1_roundtrip (hash : List Nat) (size : Nat) (f0 : List Nat)
    (hv : isValidUtf8 hash = true) (hs : size < 2 ^ 64) :
    Metadata.from_file ((Metadata.new hash size).update f0) =
      .ok { hash := hash, size := size, offset := 0,
            len := size + 40 + hash.length } := by
  have h1 : (Metadata.new hash size).update f0 =
      setLen f0 size ++ hash ++ pad20 size ++ pad20 0 := by
    rw [Metadata.update_eq _ _ rfl]
    rfl
  rw [h1, Metadata.from_file_encode (setLen f0 size) hash size 0
    (length_setLen f0 size) hs (by norm_num),
    utf8DecodeLossy_of_valid hash hv]

/-- Witness for C1 at hash `"ab"`, size 2, over a 3-byte junk file. -/
theorem c1_roundtrip_witness :
    Metadata.from_file ((Metadata.new [97, 98] 2).update [9, 9, 9]) =
      .ok { hash := [97, 98], size := 2, offset := 0, len := 44 } :=
  c1_roundtrip [97, 98] 2 [9, 9, 9] (by decide) (by decide)

/-- Claim C2: `amend(hash, size)` resets (offset 0, new hash and size,
recomputed `len`) exactly when the stored hash differs AND the stored
size differs; otherwise it returns the stored metadata unchanged. -/
theorem c2_amend (m : Metadata) (h : List Nat) (s : Nat) :
    (m.hash ≠ h ∧ m.size ≠ s →
      (m.amend h s).hash = h ∧ (m.amend h s).size = s ∧
      (m.amend h s).offset = 0 ∧ (m.amend h s).len = s + 40 + h.length) ∧
    (m.hash = h ∨ m.size = s → m.amend h s = m) := by
  constructor
  · intro hcond
    unfold Metadata.amend
    rw [if_pos hcond]
    exact ⟨rfl, rfl, rfl, rfl⟩
  · intro hcond
    unfold Metadata.amend
    rw [if_neg (by tauto)]

/-- Witness for C2: a double mismatch resets, a matching hash keeps the
stored metadata. -/
theorem c2_amend_witness :
    (((Metadata.new [97] 5).amend [98] 7).hash = [98] ∧
     ((Metadata.new [97] 5).amend [98] 7).size = 7 ∧
     ((Metadata.new [97] 5).amend [98] 7).offset = 0 ∧
     ((Metadata.new [97] 5).amend [98] 7).len = 7 + 40 + List.length [98]) ∧
    (Metadata.new [97] 5).amend [97] 9 = Metadata.new [97] 5 :=
  ⟨(c2_amend (Metadata.new [97] 5) [98] 7).1 (by decide),
   (c2_amend (Metadata.new [97] 5) [97] 9).2 (Or.inl rfl)⟩

/-- Claim C3: when the content is fully written and the verify hash
mismatches, `complete` fails with `VerificationFailed` and the working
file is byte-identical to its pre-attempt state: length `len`, content
region untouched, full trailer back in place at `[size, len)`. -/
theorem c3_verification_failed (d : Downloading) (path : List Char)
    (verify : List Nat → List Nat)
    (h : d.Inv) (hdone : d.meta.offset = d.meta.size)
    (hfail : verify (setLen d.file d.meta.size) ≠ d.meta.hash) :
    d.complete path verify =
      (.error .verificationFailed,
       { working := some d.file, renamed := none }) ∧
    d.file.length = d.meta.len ∧
    fslice d.file d.meta.size (40 + d.meta.hash.length) =
      d.meta.hash ++ pad20 d.meta.size ++ pad20 d.meta.offset := by
  have hrestore := Metadata.update_restore d h
  obtain ⟨hlen, hfile, hoff, hsize, htrail⟩ := h
  refine ⟨?_, hfile, htrail⟩
  unfold Downloading.complete
  rw [if_neg (by omega)]
  dsimp only
  rw [if_pos hfail, hrestore]

/-- Witness for C3 on a finished session whose verifier returns `"b"`
against stored hash `"a"`. -/
theorem c3_verification_failed_witness :
    doneSession.complete "video.mp4.downloading".toList (fun _ => [98]) =
      (.error .verificationFailed,
       { working := some doneSession.file, renamed := none }) ∧
    doneSession.file.length = doneSession.meta.len ∧
    fslice doneSession.file doneSession.meta.size
        (40 + doneSession.meta.hash.length) =
      doneSession.meta.hash ++ pad20 doneSession.meta.size ++
        pad20 doneSession.meta.offset :=
  c3_verification_failed doneSession "video.mp4.downloading".toList
    (fun _ => [98]) (by decide) (by decide) (by decide)

/-- Claim C4: a chunk that would push the offset past `size` makes
`write` fail with `WriteOverflow` before any I/O: the file (content and
trailer) and the in-memory offset are the input state, unchanged. -/
theorem c4_write_overflow (d : Downloading) (buf : List Nat)
    (h : d.meta.size < d.meta.offset + buf.length) :
    d.write buf = (.error .writeOverflow, d) := by
  unfold Downloading.write
  dsimp only
  rw [if_pos (by omega)]

/-- Witness for C4: one extra byte on a finished session. -/
theorem c4_write_overflow_witness :
    doneSession.write [1] = (.error .writeOverflow, doneSession) :=
  c4_write_overflow doneSession [1] (by decide)

/-- Claim C5, counterexample: the claim quantifies over every chunk
sequence whose lengths sum to `size`.  With `size = 1` the sequence
`[[50], []]` sums to 1, yet the first (non-last) write already returns
the completion signal `none` instead of a cumulative offset, and the
second returns `none` again — two writes signal completion. -/
theorem c5_counterexample :
    (([[50], []] : List (List Nat)).map List.length).sum
        = sampleSession.meta.size ∧
    sampleSession.meta.offset = 0 ∧
    Downloading.new false [] [97] 1 = .ok sampleSession ∧
    (sampleSession.writeTrace [[50], []]).map (List.map Prod.fst) =
      .ok [none, none] := by decide

/-- Claim C5 (amended: a nonempty sequence of nonempty chunks): every
write succeeds, the in-memory offsets are the cumulative sums, every
write but the last returns `some` of its cumulative offset and the last
returns the completion signal `none`, and after every write the 20-digit
offset field in the last 20 bytes of the file is the in-memory offset. -/
theorem c5_monotonic (d : Downloading) (cs : List (List Nat))
    (h : d.Inv) (h0 : d.meta.offset = 0) (hne : cs ≠ [])
    (hnec : ∀ c ∈ cs, c ≠ [])
    (hsum : (cs.map List.length).sum = d.meta.size) :
    ∃ tr, d.writeTrace cs = .ok tr ∧
      tr.map (fun p => p.2.meta.offset) = cumOffsets 0 (cs.map List.length) ∧
      tr.map (fun p => p.1) =
        ((cumOffsets 0 (cs.map List.length)).dropLast.map some) ++ [none] ∧
      ∀ p ∈ tr, fslice p.2.file (p.2.file.length - 20) 20 =
        pad20 p.2.meta.offset := by
  obtain ⟨tr, h1, h2, h3, h4⟩ := Downloading.writeTrace_go cs d h hne hnec
    (by omega)
  rw [h0] at h2 h3
  exact ⟨tr, h1, h2, h3,
    fun p hp => Downloading.Inv_offsetField p.2 (h4 p hp)⟩

/-- Witness for C5 on the fresh size-1 session and the single chunk
`[50]`. -/
theorem c5_monotonic_witness :
    ∃ tr, sampleSession.writeTrace [[50]] = .ok tr ∧
      tr.map (fun p => p.2.meta.offset) =
        cumOffsets 0 (([[50]] : List (List Nat)).map List.length) ∧
      tr.map (fun p => p.1) =
        ((cumOffsets 0 (([[50]] : List (List Nat)).map List.length)).dropLast.map
          some) ++ [none] ∧
      ∀ p ∈ tr, fslice p.2.file (p.2.file.length - 20) 20 =
        pad20 p.2.meta.offset :=
  c5_monotonic sampleSession [[50]] (by decide) (by decide) (by decide)
    (by decide) (by decide)

/-- Claim C6, counterexample: with the extensionless destination
`"video"` the working path is `"video..downloading"`, and on success
`complete` renames it to `with_extension("")` of the working path, which
is `"video."` — not the final path `"video"`.  The renamed file is the
bare content, but it does not land at the caller's destination. -/
theorem c6_counterexample :
    doneSession.complete (workingPath "video".toList) (fun _ => [97]) =
      (.ok (), { working := none,
                 renamed := some ("video.".toList, [50]) }) ∧
    "video.".toList ≠ "video".toList := by decide

/-- Claim C6 (amended): on a hash match `complete` succeeds, the working
path no longer holds a file, and the renamed file — exactly `size`
content bytes, no trailer — lands at `working_path.with_extension("")`.
For a destination with an extension that target is the original final
path; for an extensionless destination it is the destination plus a
trailing dot, not the destination itself. -/
theorem c6_complete_ok (d : Downloading) (path : List Char)
    (verify : List Nat → List Nat) (name e : List Char)
    (h : d.Inv) (hdone : d.meta.offset = d.meta.size)
    (hok : verify (setLen d.file d.meta.size) = d.meta.hash) :
    (d.complete path verify =
      (.ok (), { working := none,
                 renamed := some (withExt path [],
                   d.file.take d.meta.size) }) ∧
     (d.file.take d.meta.size).length = d.meta.size) ∧
    (pathExt name = some e → withExt (workingPath name) [] = name) ∧
    (pathExt name = none → name ≠ [] →
      withExt (workingPath name) [] = name ++ ['.']) := by
  refine ⟨?_, withExt_workingPath_ext name e,
    fun hx hne => withExt_workingPath_noext name hne hx⟩
  obtain ⟨hlen, hfile, hoff, hsize, htrail⟩ := h
  constructor
  · unfold Downloading.complete
    rw [if_neg (by omega)]
    dsimp only
    rw [if_neg (by simp [hok]), setLen_of_le _ _ (by omega)]
  · simp [List.length_take]
    omega

/-- Witness for C6 on the finished session, working path
`"video.mp4.downloading"`, destination `"video.mp4"`. -/
theorem c6_complete_ok_witness :
    (doneSession.complete (workingPath "video.mp4".toList) (fun _ => [97]) =
      (.ok (), { working := none,
                 renamed := some (withExt (workingPath "video.mp4".toList) [],
                   doneSession.file.take doneSession.meta.size) }) ∧
     (doneSession.file.take doneSession.meta.size).length =
       doneSession.meta.size) ∧
    (pathExt "video.mp4".toList = some "mp4".toList →
      withExt (workingPath "video.mp4".toList) [] = "video.mp4".toList) ∧
    (pathExt "video.mp4".toList = none → "video.mp4".toList ≠ [] →
      withExt (workingPath "video.mp4".toList) [] =
        "video.mp4".toList ++ ['.']) :=
  c6_complete_ok doneSession (workingPath "video.mp4".toList) (fun _ => [97])
    "video.mp4".toList "mp4".toList (by decide) (by decide) (by decide)

/-- Claim C7: resuming over a working file whose trailer stores the same
hash and size with offset `k < size` yields a session at offset `k`, and
its next `write(chunk)` puts the chunk at bytes `[k, k + len)` of the
content region, leaving the content before `k` untouched. -/
theorem c7_resume (content hash c : List Nat) (size k : Nat)
    (hcl : content.length = size) (hv : isValidUtf8 hash = true)
    (hs : size < 2 ^ 64) (hk64 : k < 2 ^ 64) (hk : k < size)
    (hkc : k + c.length ≤ size) :
    ∃ d, Downloading.new false (content ++ hash ++ pad20 size ++ pad20 k)
        hash size = .ok d ∧
      d.meta.offset = k ∧
      (d.write c).1 = .ok (if k + c.length ≠ size then some (k + c.length)
        else none) ∧
      fslice (d.write c).2.file k c.length = c ∧
      fslice (d.write c).2.file 0 k =
        fslice (content ++ hash ++ pad20 size ++ pad20 k) 0 k := by
  set wfile := content ++ hash ++ pad20 size ++ pad20 k with hw
  have hwlen : wfile.length = size + 40 + hash.length := by
    rw [hw]
    simp [length_pad20]
    omega
  have hff : Metadata.from_file wfile =
      .ok ⟨hash, size, k, size + 40 + hash.length⟩ := by
    rw [hw, Metadata.from_file_encode content hash size k hcl hs hk64,
      utf8DecodeLossy_of_valid hash hv]
  set m : Metadata := ⟨hash, size, k, size + 40 + hash.length⟩ with hm
  have hms : m.size = size := by rw [hm]
  have hnew : Downloading.new false wfile hash size =
      .ok { file := m.update wfile, meta := m } := by
    unfold Downloading.new
    rw [if_neg (by simp), if_neg (by omega), hff]
    dsimp only
    have hamend : (⟨hash, size, k, size + 40 + hash.length⟩ : Metadata).amend
        hash size = m := by
      unfold Metadata.amend
      rw [if_neg (by simp)]
    rw [hamend]
  have hInv : Downloading.Inv { file := m.update wfile, meta := m } :=
    Downloading.Inv_mk m wfile rfl (Nat.le_of_lt hk) hs
  obtain ⟨hr, hmeta, hInv2, hpre, hat⟩ :=
    Downloading.write_ok { file := m.update wfile, meta := m } c hInv hkc
  have hupd : fslice (m.update wfile) 0 k = fslice wfile 0 k := by
    have hsetLen : setLen wfile m.len = wfile := by
      have hl : m.len = wfile.length := by rw [hwlen]
      rw [hl, setLen_of_le _ _ (Nat.le_refl _), List.take_length]
    have hu : m.update wfile =
        writeAt wfile m.size (m.hash ++ pad20 m.size ++ pad20 m.offset) := by
      unfold Metadata.update
      rw [hsetLen]
    rw [hu]
    exact fslice_writeAt_left wfile m.size _ 0 k (by rw [hms]; omega)
      (by rw [hms]; omega)
  exact ⟨{ file := m.update wfile, meta := m }, hnew, rfl, hr,
    hat, hupd ▸ hpre⟩

/-- Witness for C7: content `[7, 8]`, hash `"h"`, size 2, stored offset
1, next chunk `[9]`. -/
theorem c7_resume_witness :
    ∃ d, Downloading.new false ([7, 8] ++ [104] ++ pad20 2 ++ pad20 1)
        [104] 2 = .ok d ∧
      d.meta.offset = 1 ∧
      (d.write [9]).1 = .ok (if 1 + List.length [9] ≠ 2
        then some (1 + List.length [9]) else none) ∧
      fslice (d.write [9]).2.file 1 (List.length [9]) = [9] ∧
      fslice (d.write [9]).2.file 0 1 =
        fslice ([7, 8] ++ [104] ++ pad20 2 ++ pad20 1) 0 1 :=
  c7_resume [7, 8] [104] [9] 2 1 (by decide) (by decide) (by decide)
    (by decide) (by decide) (by decide)

/-- Claim C8, counterexample: a final path with no extension does not
become `<path>.downloading`.  `extension().unwrap_or_default()` yields
the empty string, `format!` turns it into `".downloading"`, and
`with_extension` inserts its own dot, so `"video"` becomes
`"video..downloading"`. -/
theorem c8_counterexample :
    workingPath "video".toList = "video..downloading".toList ∧
    workingPath "video".toList ≠ "video.downloading".toList := by decide

/-- Claim C8 (amended): a final path with an extension maps to itself
plus `".downloading"` (its extension `e` is replaced by
`e.downloading`); a nonempty path with no extension maps to itself plus
`"..downloading"` — two dots, not the claimed single `".downloading"`. -/
theorem c8_workingPath (name e : List Char) :
    (pathExt name = some e →
      workingPath name = name ++ '.' :: "downloading".toList) ∧
    (pathExt name = none → name ≠ [] →
      workingPath name = name ++ '.' :: '.' :: "downloading".toList) :=
  ⟨workingPath_ext name e, fun h hne => workingPath_noext name hne h⟩

/-- Witness for C8: `"video.mp4"` and `"video"`. -/
theorem c8_workingPath_witness :
    workingPath "video.mp4".toList =
      "video.mp4".toList ++ '.' :: "downloading".toList ∧
    workingPath "video".toList =
      "video".toList ++ '.' :: '.' :: "downloading".toList :=
  ⟨(c8_workingPath "video.mp4".toList "mp4".toList).1 (by decide),
   (c8_workingPath "video".toList []).2 (by decide) (by decide)⟩

/-- Claim C9, counterexample: a decodable file whose hash region is the
single invalid byte `0xFF`.  `from_utf8_lossy` replaces it by the 3-byte
replacement character U+FFFD, so the decoded metadata violates
`len = size + 40 + byte-length(hash)` (41 ≠ 0 + 40 + 3). -/
theorem c9_counterexample :
    Metadata.from_file (255 :: (pad20 0 ++ pad20 0)) =
      .ok { hash := [239, 191, 189], size := 0, offset := 0, len := 41 } ∧
    ¬((41 : Nat) = 0 + 40 + List.length [239, 191, 189]) := by decide

/-- Claim C9 (amended): the invariant `len = size + 40 + hash length`
is established by `new`, preserved or re-established by `amend`, and
holds for every file `from_file` decodes whose hash region is valid
UTF-8; for an invalid hash region the lossy decoding can change the
hash's byte length and break the invariant (see the counterexample). -/
theorem c9_invariant (h : List Nat) (s : Nat) (m m2 : Metadata)
    (h2 : List Nat) (s2 : Nat) (f : List Nat) :
    (Metadata.new h s).len =
      (Metadata.new h s).size + 40 + (Metadata.new h s).hash.length ∧
    (m.len = m.size + 40 + m.hash.length →
      (m.amend h2 s2).len =
        (m.amend h2 s2).size + 40 + (m.amend h2 s2).hash.length) ∧
    (Metadata.from_file f = .ok m2 →
      isValidUtf8 (fslice f m2.size (f.length - m2.size - 40)) = true →
      m2.len = m2.size + 40 + m2.hash.length) := by
  refine ⟨rfl, ?_, ?_⟩
  · intro hm
    unfold Metadata.amend
    split
    · rfl
    · exact hm
  · intro hff hv
    obtain ⟨h40, hfit, hlen, _, _, hhash⟩ := Metadata.from_file_ok f m2 hff
    rw [utf8DecodeLossy_of_valid _ hv] at hhash
    have hlenr : (fslice f m2.size (f.length - m2.size - 40)).length =
        f.length - m2.size - 40 := by
      simp [fslice, List.length_take, List.length_drop]
    rw [hlen, hhash, hlenr]
    omega

/-- Witness for C9: `new`, a resetting `amend`, and a decode of the
valid-UTF-8 file `[9] ++ "a" ++ trailer`. -/
theorem c9_invariant_witness :
    (Metadata.new [97] 5).len =
      (Metadata.new [97] 5).size + 40 + (Metadata.new [97] 5).hash.length ∧
    ((Metadata.new [98] 3).amend [99] 7).len =
      ((Metadata.new [98] 3).amend [99] 7).size + 40 +
        ((Metadata.new [98] 3).amend [99] 7).hash.length ∧
    (⟨[97], 1, 0, 42⟩ : Metadata).len =
      (⟨[97], 1, 0, 42⟩ : Metadata).size + 40 +
        (⟨[97], 1, 0, 42⟩ : Metadata).hash.length :=
  ⟨(c9_invariant [97] 5 (Metadata.new [98] 3) ⟨[97], 1, 0, 42⟩ [99] 7
      ([9] ++ [97] ++ pad20 1 ++ pad20 0)).1,
   (c9_invariant [97] 5 (Metadata.new [98] 3) ⟨[97], 1, 0, 42⟩ [99] 7
      ([9] ++ [97] ++ pad20 1 ++ pad20 0)).2.1 (by decide),
   (c9_invariant [97] 5 (Metadata.new [98] 3) ⟨[97], 1, 0, 42⟩ [99] 7
      ([9] ++ [97] ++ pad20 1 ++ pad20 0)).2.2 (by decide) (by decide)⟩

/-- Claim C10, counterexample: a 40-byte file whose size field parses as
100.  The parsed size exceeds `total_length - 40`, so `from_file`
reaches the underflowing `u64` subtraction `len - size - 40` (a panic in
debug builds, an aborting huge allocation in release builds) rather than
returning a value or an error normally. -/
theorem c10_counterexample :
    Metadata.from_file (pad20 100 ++ pad20 0) =
      .error .subtractionUnderflow := by decide

/-- Claim C10 (amended): `from_file` returns normally on every file of
length at least 40 whose two counter fields parse, provided the parsed
size satisfies `size + 40 ≤ total_length`; when the parsed size exceeds
`total_length - 40` the hash-length subtraction underflows (see the
counterexample). -/
theorem c10_total (f : List Nat) (s o : Nat)
    (hlen : 40 ≤ f.length)
    (hs : parseU64 (fslice f (f.length - 40) 20) = some s)
    (ho : parseU64 (fslice f (f.length - 20) 20) = some o)
    (hfit : s + 40 ≤ f.length) :
    Metadata.from_file f =
      .ok { hash := utf8DecodeLossy (fslice f s (f.length - s - 40)),
            size := s, offset := o, len := f.length } := by
  unfold Metadata.from_file
  rw [if_neg (by omega)]
  have htake : (fslice f (f.length - 40) 40).take 20 =
      fslice f (f.length - 40) 20 := fslice_take _ _ _ _ (by omega)
  have hdrop : (fslice f (f.length - 40) 40).drop 20 =
      fslice f (f.length - 20) 20 := by
    unfold fslice
    rw [List.drop_take, List.drop_drop]
    have h1 : f.length - 40 + 20 = f.length - 20 := by omega
    have h2 : (40 : Nat) - 20 = 20 := by omega
    rw [h1, h2]
  rw [htake, hdrop, hs, ho]
  dsimp only
  rw [if_pos hfit]

/-- Witness for C10 on the 42-byte file `[5] ++ "a" ++ trailer(1, 1)`. -/
theorem c10_total_witness :
    Metadata.from_file ([5] ++ [97] ++ pad20 1 ++ pad20 1) =
      .ok { hash := utf8DecodeLossy (fslice ([5] ++ [97] ++ pad20 1 ++ pad20 1)
              1 (([5] ++ [97] ++ pad20 1 ++ pad20 1).length - 1 - 40)),
            size := 1, offset := 1,
            len := ([5] ++ [97] ++ pad20 1 ++ pad20 1).length } :=
  c10_total ([5] ++ [97] ++ pad20 1 ++ pad20 1) 1 1 (by decide) (by decide)
    (by decide) (by decide)
